import Mathlib

/-!
Verification of the anagram-checking Turing machine simulator
(`turing_machine.py`).  The `TuringMachine` structure and the functions in
its namespace are a shallow embedding of the Python class of the same name:
the mutable object becomes explicit state passing, the two inner `while`
loops of `step` become fuel-indexed recursions (the fuel `tape.length + 101`
is an upper bound on their iteration count, since rightward motion extends
the tape with blanks and both loops stop on a blank), and the log messages
become constructors of the `Descr` inductive type.
-/

set_option maxHeartbeats 4000000

/-- Control states of the machine: the string literals used by the Python
code for `self.state`. -/
inductive MState where
  | scanToSeparator
  | findFirstChar
  | findMatch
  | checkSecondString
  | accept
  | reject
deriving DecidableEq, Repr

/-- The descriptions passed to `log_step`, one constructor per message
(messages interpolating a character carry that character). -/
inductive Descr where
  | startingMachine
  | optEqual
  | optUnequal
  | foundSeparator
  | noSeparatorFound
  | firstProcessed
  | firstEmpty
  | unexpectedEnd
  | couldNotFind
  | processingChar (c : Char)
  | reachedEndLooking
  | lookingForMatch (c : Char)
  | noMatch (c : Char)
  | foundMatch (c : Char)
  | allMatched
  | unmatchedChar (c : Char)
  | exceededMaxSteps
deriving DecidableEq, Repr

/-- One group of lines appended by a `log_step` call: the control state, the
description, the full tape contents and the head position at that instant. -/
structure LogEntry where
  state : MState
  descr : Descr
  tape : List Char
  head : Int
deriving DecidableEq, Repr

/-- The state of the Python `TuringMachine` object.  `originalChar` models
the dynamically added attribute `self.original_char`; it is `none` until the
machine first assigns it. -/
structure TuringMachine where
  tape : List Char
  headPosition : Int
  state : MState
  stepsLog : List LogEntry
  separatorPosition : Option Int
  originalChar : Option Char
deriving DecidableEq, Repr

/-- Python's `input_string.split('#')`. -/
def splitOnHash : List Char → List (List Char)
  | [] => [[]]
  | c :: cs =>
    if c = '#' then [] :: splitOnHash cs
    else
      match splitOnHash cs with
      | [] => [[c]]
      | p :: ps => (c :: p) :: ps

namespace TuringMachine

/-- `read`: the symbol at the current position (the head is always in
bounds for reachable machines; the default is never used there). -/
def read (m : TuringMachine) : Char :=
  m.tape.getD m.headPosition.toNat '_'

/-- `write`: overwrite the symbol at the current position. -/
def write (m : TuringMachine) (symbol : Char) : TuringMachine :=
  { m with tape := m.tape.set m.headPosition.toNat symbol }

/-- `move`: shift the head left (clamping at 0) or right (extending the
tape by 100 blanks when fewer than 10 cells remain). -/
def move (m : TuringMachine) (direction : Char) : TuringMachine :=
  if direction = 'L' then
    { m with headPosition :=
        if m.headPosition - 1 < 0 then 0 else m.headPosition - 1 }
  else if direction = 'R' then
    if m.headPosition + 1 ≥ (m.tape.length : Int) - 10 then
      { m with headPosition := m.headPosition + 1,
               tape := m.tape ++ List.replicate 100 '_' }
    else
      { m with headPosition := m.headPosition + 1 }
  else m

/-- `goto_separator`: jump to the remembered separator position if known;
returns the updated machine and the Python function's boolean result. -/
def gotoSeparator (m : TuringMachine) : TuringMachine × Bool :=
  match m.separatorPosition with
  | some p => ({ m with headPosition := p }, true)
  | none => (m, false)

/-- `goto_start`: place the head back at index 5. -/
def gotoStart (m : TuringMachine) : TuringMachine :=
  { m with headPosition := 5 }

/-- `log_step`: append one group of lines to `steps_log`. -/
def logStep (m : TuringMachine) (d : Descr) : TuringMachine :=
  { m with stepsLog := m.stepsLog ++ [⟨m.state, d, m.tape, m.headPosition⟩] }

/-- `__init__`: build the initial tape (5 leading blanks, the input, then
`max 20 (length input)` trailing blanks), head at 5, and apply the
repeated-single-character fast-path optimization. -/
def init (input : List Char) : TuringMachine :=
  let m : TuringMachine :=
    { tape := List.replicate 5 '_' ++ input ++ List.replicate (max 20 input.length) '_'
      headPosition := 5
      state := .scanToSeparator
      stepsLog := []
      separatorPosition := none
      originalChar := none }
  if input.contains '#' then
    match splitOnHash input with
    | [a :: r0, b :: r1] =>
      if ((a :: r0).all (· == a) && (b :: r1).all (· == b)) && a == b then
        if (a :: r0).length = (b :: r1).length then
          logStep { m with state := .accept } .optEqual
        else
          logStep { m with state := .reject } .optUnequal
      else m
    | _ => m
  else m

/-- The inner loop `while read() != '$' and read() != '_': move('R')` of the
blank-symbol branch of state `find first char`.  The fuel bounds the number
of iterations; `tape.length + 101` always suffices because rightward moves
extend the tape with blanks before the head can pass its end. -/
def scanRightLoop : Nat → TuringMachine → TuringMachine
  | 0, m => m
  | fuel + 1, m =>
    let s := read m
    if s = '$' ∨ s = '_' then m
    else scanRightLoop fuel (move m 'R')

/-- The inner loop `while read() != '$': move('R'); if read() == '_': ...`
of the character branch of state `find first char`.  The boolean is `true`
when the loop exited on `'$'`, and `false` when a blank was hit (in which
case the caller rejects, mirroring the early `return`). -/
def findSepLoop : Nat → TuringMachine → TuringMachine × Bool
  | 0, m => (m, false)
  | fuel + 1, m =>
    if read m = '$' then (m, true)
    else
      let m1 := move m 'R'
      if read m1 = '_' then (m1, false)
      else findSepLoop fuel m1

/-- The `'scan to separator'` branch of `step`. -/
def stepScan (m : TuringMachine) (symbol : Char) : TuringMachine :=
  if symbol = '#' then
    let m1 := logStep m .foundSeparator
    let m2 := write m1 '$'
    let m3 := { m2 with separatorPosition := some m2.headPosition,
                        state := .findFirstChar }
    gotoStart m3
  else if symbol = '_' then
    if m.headPosition ≥ 5 + 10 then
      logStep { m with state := .reject } .noSeparatorFound
    else
      move m 'R'
  else
    move m 'R'

/-- The `'find first char'` branch of `step`. -/
def stepFindFirstChar (m : TuringMachine) (symbol : Char) : TuringMachine :=
  if symbol = '$' then
    logStep (move { m with state := .checkSecondString } 'R') .firstProcessed
  else if symbol = '*' then
    move m 'R'
  else if symbol = '_' then
    if m.headPosition < 10 then
      let m1 := scanRightLoop (m.tape.length + 101) m
      if read m1 = '$' then
        logStep (move { m1 with state := .checkSecondString } 'R') .firstEmpty
      else
        logStep { m1 with state := .reject } .unexpectedEnd
    else
      let m1 := scanRightLoop (m.tape.length + 101) m
      if read m1 = '$' then
        move { m1 with state := .checkSecondString } 'R'
      else
        logStep { m1 with state := .reject } .couldNotFind
  else
    let c := symbol
    let m1 := logStep (write m '*') (.processingChar c)
    let g := gotoSeparator m1
    if g.2 then
      let m2 := move g.1 'R'
      logStep { m2 with state := .findMatch, originalChar := some c }
        (.lookingForMatch c)
    else
      let f := findSepLoop (g.1.tape.length + 101) g.1
      if f.2 then
        let m2 := { f.1 with separatorPosition := some f.1.headPosition }
        let m3 := move m2 'R'
        logStep { m3 with state := .findMatch, originalChar := some c }
          (.lookingForMatch c)
      else
        logStep { f.1 with state := .reject } .reachedEndLooking

/-- The `'find match'` branch of `step`.  The `none` cases are unreachable
for machines built by `init` (the state `findMatch` is only ever entered
right after `originalChar` is assigned). -/
def stepFindMatch (m : TuringMachine) (symbol : Char) : TuringMachine :=
  if symbol = '_' then
    match m.originalChar with
    | some oc => logStep { m with state := .reject } (.noMatch oc)
    | none => m
  else if symbol = 'X' then
    move m 'R'
  else
    match m.originalChar with
    | some oc =>
      if symbol = oc then
        let m1 := logStep (write m 'X') (.foundMatch oc)
        gotoStart { m1 with state := .findFirstChar }
      else
        move m 'R'
    | none => m

/-- The `'check second string'` branch of `step`. -/
def stepCheckSecond (m : TuringMachine) (symbol : Char) : TuringMachine :=
  if symbol = 'X' then
    move m 'R'
  else if symbol = '_' then
    logStep { m with state := .accept } .allMatched
  else
    logStep { m with state := .reject } (.unmatchedChar symbol)

/-- `step`: one transition.  The Python function returns
`self.head_position`, which is `(step m).headPosition` here. -/
def step (m : TuringMachine) : TuringMachine :=
  let symbol := read m
  match m.state with
  | .scanToSeparator => stepScan m symbol
  | .findFirstChar => stepFindFirstChar m symbol
  | .findMatch => stepFindMatch m symbol
  | .checkSecondString => stepCheckSecond m symbol
  | .accept => m
  | .reject => m

/-- The `while` loop of `run`: step until a terminal state or the fuel
(the step budget) is exhausted; also returns the number of `step` calls
performed (Python's `step_count`). -/
def runLoop : Nat → TuringMachine → TuringMachine × Nat
  | 0, m => (m, 0)
  | fuel + 1, m =>
    if m.state = MState.accept ∨ m.state = MState.reject then (m, 0)
    else
      let r := runLoop fuel (step m)
      (r.1, r.2 + 1)

/-- `run`: log the start entry, return immediately if already terminal,
otherwise loop with budget `min 100000 (10 × tape length)` and force
`reject` when the budget was used up. -/
def run (m : TuringMachine) : TuringMachine :=
  let m1 := logStep m .startingMachine
  if m1.state = MState.accept ∨ m1.state = MState.reject then m1
  else
    let maxSteps := min 100000 (m1.tape.length * 10)
    let r := runLoop maxSteps m1
    if maxSteps ≤ r.2 then
      logStep { r.1 with state := MState.reject } .exceededMaxSteps
    else r.1

/-- The `'accepted'` field of the dictionary returned by `run`. -/
def runAccepted (m : TuringMachine) : Bool :=
  (run m).state == MState.accept

/-- Iterated `step`, modelling a driver calling `step()` repeatedly. -/
def stepN : Nat → TuringMachine → TuringMachine
  | 0, m => m
  | n + 1, m => stepN n (step m)

/-- The machine halted (its state is one of the two terminal states). -/
def Terminal (m : TuringMachine) : Prop :=
  m.state = MState.accept ∨ m.state = MState.reject

instance (m : TuringMachine) : Decidable (Terminal m) := by
  unfold Terminal; infer_instance

/-- The step budget `min(100000, len(self.tape) * 10)` computed by `run`
from the tape as it is when `run` starts. -/
def runBudget (m : TuringMachine) : Nat :=
  min 100000 (m.tape.length * 10)

/-- The machine `run` works on after logging its start entry. -/
def startState (m : TuringMachine) : TuringMachine :=
  logStep m .startingMachine

/-- The pair (machine, number of `step` calls) produced by `run`'s loop on
a machine that was not already terminal. -/
def loopResult (m : TuringMachine) : TuringMachine × Nat :=
  runLoop (runBudget m) (startState m)

/-- When the remembered separator position is an index, that index is a
valid tape position. -/
def SepBound (m : TuringMachine) : Prop :=
  match m.separatorPosition with
  | none => True
  | some p => 0 ≤ p ∧ p < (m.tape.length : Int)

instance (m : TuringMachine) : Decidable (SepBound m) := by
  unfold SepBound
  cases m.separatorPosition <;> infer_instance

/-- Head invariant: the head is a valid tape index, the tape keeps its
initial minimum length, and the cached separator index is in bounds. -/
def HInv (m : TuringMachine) : Prop :=
  0 ≤ m.headPosition ∧ m.headPosition < (m.tape.length : Int) ∧
    25 ≤ m.tape.length ∧ SepBound m

instance (m : TuringMachine) : Decidable (HInv m) := by
  unfold HInv; infer_instance

/-- When the remembered separator position is an index, the tape cell at
that index holds `'$'`. -/
def SepDollar (m : TuringMachine) : Prop :=
  match m.separatorPosition with
  | none => True
  | some p => m.tape.getD p.toNat '_' = '$'

instance (m : TuringMachine) : Decidable (SepDollar m) := by
  unfold SepDollar
  cases m.separatorPosition <;> infer_instance

/-- Full machine invariant: head invariant, the separator cache points at a
`'$'` cell, and the remembered pivot character is never `'$'`. -/
def Inv (m : TuringMachine) : Prop :=
  HInv m ∧ SepDollar m ∧ m.originalChar ≠ some '$'

instance (m : TuringMachine) : Decidable (Inv m) := by
  unfold Inv; infer_instance

end TuringMachine

/-- Two machines agree on everything except possibly the trace log.  The
log never feeds back into the transitions, so such machines step in
lockstep. -/
def SameCore (m m' : TuringMachine) : Prop :=
  m.tape = m'.tape ∧ m.headPosition = m'.headPosition ∧
    m.state = m'.state ∧ m.separatorPosition = m'.separatorPosition ∧
    m.originalChar = m'.originalChar

/-- 38 pairwise distinct letters: a payload-alphabet string long enough
that the general algorithm needs more steps than `run`'s budget allows. -/
def bigHalf : List Char :=
  "abcdefghijklmnopqrstuvwxyzABCDEFGHIJKL".toList

/-- The combined input `bigHalf # reverse bigHalf`: the two halves are
anagrams of each other. -/
def bigInput : List Char :=
  bigHalf ++ '#' :: bigHalf.reverse

namespace TuringMachine

@[simp] lemma logStep_tape (m : TuringMachine) (d : Descr) :
    (logStep m d).tape = m.tape := rfl

@[simp] lemma logStep_head (m : TuringMachine) (d : Descr) :
    (logStep m d).headPosition = m.headPosition := rfl

@[simp] lemma logStep_state (m : TuringMachine) (d : Descr) :
    (logStep m d).state = m.state := rfl

@[simp] lemma logStep_sep (m : TuringMachine) (d : Descr) :
    (logStep m d).separatorPosition = m.separatorPosition := rfl

@[simp] lemma logStep_orig (m : TuringMachine) (d : Descr) :
    (logStep m d).originalChar = m.originalChar := rfl

@[simp] lemma logStep_log (m : TuringMachine) (d : Descr) :
    (logStep m d).stepsLog
      = m.stepsLog ++ [⟨m.state, d, m.tape, m.headPosition⟩] := rfl

@[simp] lemma write_tape (m : TuringMachine) (c : Char) :
    (write m c).tape = m.tape.set m.headPosition.toNat c := rfl

@[simp] lemma write_head (m : TuringMachine) (c : Char) :
    (write m c).headPosition = m.headPosition := rfl

@[simp] lemma write_state (m : TuringMachine) (c : Char) :
    (write m c).state = m.state := rfl

@[simp] lemma write_sep (m : TuringMachine) (c : Char) :
    (write m c).separatorPosition = m.separatorPosition := rfl

@[simp] lemma write_orig (m : TuringMachine) (c : Char) :
    (write m c).originalChar = m.originalChar := rfl

@[simp] lemma write_log (m : TuringMachine) (c : Char) :
    (write m c).stepsLog = m.stepsLog := rfl

@[simp] lemma gotoStart_tape (m : TuringMachine) : (gotoStart m).tape = m.tape := rfl

@[simp] lemma gotoStart_head (m : TuringMachine) : (gotoStart m).headPosition = 5 := rfl

@[simp] lemma gotoStart_state (m : TuringMachine) : (gotoStart m).state = m.state := rfl

@[simp] lemma gotoStart_sep (m : TuringMachine) :
    (gotoStart m).separatorPosition = m.separatorPosition := rfl

@[simp] lemma gotoStart_orig (m : TuringMachine) :
    (gotoStart m).originalChar = m.originalChar := rfl

@[simp] lemma gotoStart_log (m : TuringMachine) :
    (gotoStart m).stepsLog = m.stepsLog := rfl

lemma gotoSeparator_none {m : TuringMachine} (h : m.separatorPosition = none) :
    gotoSeparator m = (m, false) := by
  simp [gotoSeparator, h]

lemma gotoSeparator_some {m : TuringMachine} {p : Int}
    (h : m.separatorPosition = some p) :
    gotoSeparator m = ({ m with headPosition := p }, true) := by
  simp [gotoSeparator, h]

lemma move_L (m : TuringMachine) :
    move m 'L' = { m with headPosition :=
      if m.headPosition - 1 < 0 then 0 else m.headPosition - 1 } := rfl

lemma move_R (m : TuringMachine) :
    move m 'R' =
      if m.headPosition + 1 ≥ (m.tape.length : Int) - 10 then
        { m with headPosition := m.headPosition + 1,
                 tape := m.tape ++ List.replicate 100 '_' }
      else { m with headPosition := m.headPosition + 1 } := rfl

@[simp] lemma move_state (m : TuringMachine) (d : Char) :
    (move m d).state = m.state := by
  unfold move; split_ifs <;> rfl

@[simp] lemma move_log (m : TuringMachine) (d : Char) :
    (move m d).stepsLog = m.stepsLog := by
  unfold move; split_ifs <;> rfl

@[simp] lemma move_sep (m : TuringMachine) (d : Char) :
    (move m d).separatorPosition = m.separatorPosition := by
  unfold move; split_ifs <;> rfl

@[simp] lemma move_orig (m : TuringMachine) (d : Char) :
    (move m d).originalChar = m.originalChar := by
  unfold move; split_ifs <;> rfl

/-- A `move` leaves the tape alone or appends the fixed block of 100
blanks, the latter only for a RIGHT move whose resulting head position is
within 10 cells of the current end of the tape. -/
lemma move_tape_shape (m : TuringMachine) (d : Char) :
    (move m d).tape = m.tape ∨
      ((move m d).tape = m.tape ++ List.replicate 100 '_' ∧ d = 'R' ∧
        (m.tape.length : Int) - 10 ≤ m.headPosition + 1) := by
  unfold move
  split_ifs with h1 h2 h3 h4
  · left; rfl
  · left; rfl
  · right; exact ⟨rfl, h3, h4⟩
  · left; rfl
  · left; rfl

lemma scanRightLoop_frame (f : Nat) (m : TuringMachine) :
    (scanRightLoop f m).state = m.state ∧
    (scanRightLoop f m).stepsLog = m.stepsLog ∧
    (scanRightLoop f m).separatorPosition = m.separatorPosition ∧
    (scanRightLoop f m).originalChar = m.originalChar := by
  induction f generalizing m with
  | zero => simp [scanRightLoop]
  | succ f ih =>
    unfold scanRightLoop
    by_cases h : read m = '$' ∨ read m = '_'
    · simp [h]
    · simpa [h] using ih (move m 'R')

lemma scanRightLoop_tape (f : Nat) (m : TuringMachine) :
    ∃ n, (scanRightLoop f m).tape = m.tape ++ List.replicate n '_' := by
  induction f generalizing m with
  | zero => exact ⟨0, by simp [scanRightLoop]⟩
  | succ f ih =>
    unfold scanRightLoop
    by_cases h : read m = '$' ∨ read m = '_'
    · exact ⟨0, by simp [h]⟩
    · obtain ⟨n1, h1⟩ := ih (move m 'R')
      rcases move_tape_shape m 'R' with hmt | ⟨hmt, -, -⟩
      · exact ⟨n1, by simp only [h, if_false]; rw [h1, hmt]⟩
      · refine ⟨100 + n1, ?_⟩
        simp only [h, if_false]
        rw [h1, hmt, List.append_assoc, ← List.replicate_add]

lemma findSepLoop_frame (f : Nat) (m : TuringMachine) :
    (findSepLoop f m).1.state = m.state ∧
    (findSepLoop f m).1.stepsLog = m.stepsLog ∧
    (findSepLoop f m).1.separatorPosition = m.separatorPosition ∧
    (findSepLoop f m).1.originalChar = m.originalChar := by
  induction f generalizing m with
  | zero => simp [findSepLoop]
  | succ f ih =>
    unfold findSepLoop
    by_cases h1 : read m = '$'
    · simp [h1]
    · by_cases h2 : read (move m 'R') = '_'
      · simp [h1, h2]
      · simpa [h1, h2] using ih (move m 'R')

lemma findSepLoop_tape (f : Nat) (m : TuringMachine) :
    ∃ n, (findSepLoop f m).1.tape = m.tape ++ List.replicate n '_' := by
  induction f generalizing m with
  | zero => exact ⟨0, by simp [findSepLoop]⟩
  | succ f ih =>
    unfold findSepLoop
    by_cases h1 : read m = '$'
    · exact ⟨0, by simp [h1]⟩
    · by_cases h2 : read (move m 'R') = '_'
      · rcases move_tape_shape m 'R' with hmt | ⟨hmt, -, -⟩
        · exact ⟨0, by simp [h1, h2, hmt]⟩
        · exact ⟨100, by simp [h1, h2, hmt]⟩
      · obtain ⟨n1, h3⟩ := ih (move m 'R')
        rcases move_tape_shape m 'R' with hmt | ⟨hmt, -, -⟩
        · exact ⟨n1, by simp only [h1, h2, if_false]; rw [h3, hmt]⟩
        · refine ⟨100 + n1, ?_⟩
          simp only [h1, h2, if_false]
          rw [h3, hmt, List.append_assoc, ← List.replicate_add]

/-- When the separator-search loop reports success, the head is on a `'$'`
cell. -/
lemma findSepLoop_found (f : Nat) (m : TuringMachine) :
    (findSepLoop f m).2 = true → read (findSepLoop f m).1 = '$' := by
  induction f generalizing m with
  | zero => simp [findSepLoop]
  | succ f ih =>
    unfold findSepLoop
    by_cases h1 : read m = '$'
    · simp [h1]
    · by_cases h2 : read (move m 'R') = '_'
      · simp [h1, h2]
      · simpa [h1, h2] using ih (move m 'R')

@[simp] lemma gotoSeparator_fst_tape (m : TuringMachine) :
    (gotoSeparator m).1.tape = m.tape := by
  rcases h : m.separatorPosition with _ | p <;> simp [gotoSeparator, h]

@[simp] lemma gotoSeparator_fst_state (m : TuringMachine) :
    (gotoSeparator m).1.state = m.state := by
  rcases h : m.separatorPosition with _ | p <;> simp [gotoSeparator, h]

@[simp] lemma gotoSeparator_fst_log (m : TuringMachine) :
    (gotoSeparator m).1.stepsLog = m.stepsLog := by
  rcases h : m.separatorPosition with _ | p <;> simp [gotoSeparator, h]

@[simp] lemma gotoSeparator_fst_sep (m : TuringMachine) :
    (gotoSeparator m).1.separatorPosition = m.separatorPosition := by
  rcases h : m.separatorPosition with _ | p <;> simp [gotoSeparator, h]

@[simp] lemma gotoSeparator_fst_orig (m : TuringMachine) :
    (gotoSeparator m).1.originalChar = m.originalChar := by
  rcases h : m.separatorPosition with _ | p <;> simp [gotoSeparator, h]

lemma append_blanks_trans {t1 t2 t3 : List Char} {a b : Nat}
    (h1 : t2 = t1 ++ List.replicate a '_')
    (h2 : t3 = t2 ++ List.replicate b '_') :
    t3 = t1 ++ List.replicate (a + b) '_' := by
  rw [h2, h1, List.append_assoc, ← List.replicate_add]

/-- One `step` changes the tape only by overwriting at most one cell and
possibly appending blank cells at the end. -/
lemma step_tape_shape (m : TuringMachine) :
    ∃ n, (step m).tape = m.tape ++ List.replicate n '_' ∨
      ∃ i c, (step m).tape = m.tape.set i c ++ List.replicate n '_' := by
  have hmv : ∀ (m' : TuringMachine) (base : List Char) (a : Nat),
      m'.tape = base ++ List.replicate a '_' →
      ∃ n, (move m' 'R').tape = base ++ List.replicate n '_' := by
    intro m' base a ht
    rcases move_tape_shape m' 'R' with h | ⟨h, -, -⟩
    · exact ⟨a, by rw [h, ht]⟩
    · exact ⟨a + 100, append_blanks_trans ht h⟩
  have hid : ∀ t : List Char, t = t ++ List.replicate 0 '_' := by simp
  cases hs : m.state
  case accept => exact ⟨0, Or.inl (by simp [step, hs])⟩
  case reject => exact ⟨0, Or.inl (by simp [step, hs])⟩
  case scanToSeparator =>
    simp only [step, hs]
    unfold stepScan
    split_ifs with h1 h2 h3
    · exact ⟨0, Or.inr ⟨m.headPosition.toNat, '$', by simp⟩⟩
    · exact ⟨0, Or.inl (by simp)⟩
    · obtain ⟨n, h⟩ := hmv m m.tape 0 (hid _)
      exact ⟨n, Or.inl (by simpa using h)⟩
    · obtain ⟨n, h⟩ := hmv m m.tape 0 (hid _)
      exact ⟨n, Or.inl (by simpa using h)⟩
  case checkSecondString =>
    simp only [step, hs]
    unfold stepCheckSecond
    split_ifs with h1 h2
    · obtain ⟨n, h⟩ := hmv m m.tape 0 (hid _)
      exact ⟨n, Or.inl (by simpa using h)⟩
    · exact ⟨0, Or.inl (by simp)⟩
    · exact ⟨0, Or.inl (by simp)⟩
  case findMatch =>
    simp only [step, hs]
    unfold stepFindMatch
    split_ifs with h1 h2
    · cases horig : m.originalChar with
      | none => exact ⟨0, Or.inl (by simp)⟩
      | some oc => exact ⟨0, Or.inl (by simp [horig])⟩
    · obtain ⟨n, h⟩ := hmv m m.tape 0 (hid _)
      exact ⟨n, Or.inl (by simpa using h)⟩
    · cases horig : m.originalChar with
      | none => exact ⟨0, Or.inl (by simp [horig])⟩
      | some oc =>
        by_cases heq : read m = oc
        · exact ⟨0, Or.inr ⟨m.headPosition.toNat, 'X', by simp [horig, heq]⟩⟩
        · obtain ⟨n, h⟩ := hmv m m.tape 0 (hid _)
          exact ⟨n, Or.inl (by simpa [horig, heq] using h)⟩
  case findFirstChar =>
    simp only [step, hs]
    simp only [stepFindFirstChar]
    split_ifs with h1 h2 h3 h4 h5 h6 h7 h8
    · obtain ⟨n, h⟩ :=
        hmv { m with state := MState.checkSecondString } m.tape 0 (hid _)
      exact ⟨n, Or.inl (by simpa using h)⟩
    · obtain ⟨n, h⟩ := hmv m m.tape 0 (hid _)
      exact ⟨n, Or.inl (by simpa using h)⟩
    · -- blank near the start, loop ended on '$'
      obtain ⟨n1, hl⟩ := scanRightLoop_tape (m.tape.length + 101) m
      obtain ⟨n2, h⟩ :=
        hmv { scanRightLoop (m.tape.length + 101) m with
                state := MState.checkSecondString } m.tape n1 (by simpa using hl)
      exact ⟨n2, Or.inl (by simpa using h)⟩
    · -- blank near the start, loop ended on a blank
      obtain ⟨n1, hl⟩ := scanRightLoop_tape (m.tape.length + 101) m
      exact ⟨n1, Or.inl (by simpa using hl)⟩
    · -- blank far from the start, loop ended on '$'
      obtain ⟨n1, hl⟩ := scanRightLoop_tape (m.tape.length + 101) m
      obtain ⟨n2, h⟩ :=
        hmv { scanRightLoop (m.tape.length + 101) m with
                state := MState.checkSecondString } m.tape n1 (by simpa using hl)
      exact ⟨n2, Or.inl (by simpa using h)⟩
    · -- blank far from the start, loop ended on a blank
      obtain ⟨n1, hl⟩ := scanRightLoop_tape (m.tape.length + 101) m
      exact ⟨n1, Or.inl (by simpa using hl)⟩
    · -- character branch, cached separator position available
      obtain ⟨n, h⟩ :=
        hmv (gotoSeparator (logStep (write m '*')
              (Descr.processingChar (read m)))).1
          (m.tape.set m.headPosition.toNat '*') 0 (by simp)
      exact ⟨n, Or.inr ⟨m.headPosition.toNat, '*', by simpa using h⟩⟩
    · -- character branch, separator found by rescanning
      obtain ⟨n1, hl⟩ := findSepLoop_tape
        ((gotoSeparator (logStep (write m '*')
            (Descr.processingChar (read m)))).1.tape.length + 101)
        (gotoSeparator (logStep (write m '*')
            (Descr.processingChar (read m)))).1
      obtain ⟨n2, h⟩ :=
        hmv { (findSepLoop ((gotoSeparator (logStep (write m '*')
                (Descr.processingChar (read m)))).1.tape.length + 101)
                (gotoSeparator (logStep (write m '*')
                  (Descr.processingChar (read m)))).1).1 with
              separatorPosition := some (findSepLoop ((gotoSeparator (logStep
                (write m '*') (Descr.processingChar (read m)))).1.tape.length
                  + 101)
                (gotoSeparator (logStep (write m '*')
                  (Descr.processingChar (read m)))).1).1.headPosition }
          (m.tape.set m.headPosition.toNat '*') n1 (by simpa using hl)
      exact ⟨n2, Or.inr ⟨m.headPosition.toNat, '*', by simpa using h⟩⟩
    · -- character branch, rescanning hit a blank: reject
      obtain ⟨n1, hl⟩ := findSepLoop_tape
        ((gotoSeparator (logStep (write m '*')
            (Descr.processingChar (read m)))).1.tape.length + 101)
        (gotoSeparator (logStep (write m '*')
            (Descr.processingChar (read m)))).1
      exact ⟨n1, Or.inr ⟨m.headPosition.toNat, '*', by simpa using hl⟩⟩

@[simp] lemma scanRightLoop_state (f : Nat) (m : TuringMachine) :
    (scanRightLoop f m).state = m.state := (scanRightLoop_frame f m).1

@[simp] lemma scanRightLoop_log (f : Nat) (m : TuringMachine) :
    (scanRightLoop f m).stepsLog = m.stepsLog := (scanRightLoop_frame f m).2.1

@[simp] lemma scanRightLoop_sep (f : Nat) (m : TuringMachine) :
    (scanRightLoop f m).separatorPosition = m.separatorPosition :=
  (scanRightLoop_frame f m).2.2.1

@[simp] lemma scanRightLoop_orig (f : Nat) (m : TuringMachine) :
    (scanRightLoop f m).originalChar = m.originalChar :=
  (scanRightLoop_frame f m).2.2.2

@[simp] lemma findSepLoop_fst_state (f : Nat) (m : TuringMachine) :
    (findSepLoop f m).1.state = m.state := (findSepLoop_frame f m).1

@[simp] lemma findSepLoop_fst_log (f : Nat) (m : TuringMachine) :
    (findSepLoop f m).1.stepsLog = m.stepsLog := (findSepLoop_frame f m).2.1

@[simp] lemma findSepLoop_fst_sep (f : Nat) (m : TuringMachine) :
    (findSepLoop f m).1.separatorPosition = m.separatorPosition :=
  (findSepLoop_frame f m).2.2.1

@[simp] lemma findSepLoop_fst_orig (f : Nat) (m : TuringMachine) :
    (findSepLoop f m).1.originalChar = m.originalChar :=
  (findSepLoop_frame f m).2.2.2

/-- The trace log is append-only across one `step`: the old log is a
prefix of the new one. -/
lemma step_log_grows (m : TuringMachine) :
    m.stepsLog <+: (step m).stepsLog := by
  cases hs : m.state
  case accept => simp [step, hs]
  case reject => simp [step, hs]
  case scanToSeparator =>
    simp only [step, hs, stepScan]
    split_ifs with h1 h2 h3 <;>
      simp [List.prefix_append, List.append_assoc]
  case checkSecondString =>
    simp only [step, hs, stepCheckSecond]
    split_ifs with h1 h2 <;>
      simp [List.prefix_append, List.append_assoc]
  case findMatch =>
    simp only [step, hs, stepFindMatch]
    split_ifs with h1 h2
    · cases horig : m.originalChar <;> simp [List.prefix_append]
    · simp
    · cases horig : m.originalChar with
      | none => simp
      | some oc =>
        by_cases heq : read m = oc <;>
          simp [heq, List.prefix_append]
  case findFirstChar =>
    simp only [step, hs, stepFindFirstChar]
    split_ifs with h1 h2 h3 h4 h5 h6 h7 h8 <;>
      simp [List.prefix_append, List.append_assoc]

/-- One `step` appends at most two groups of entries to the trace log. -/
lemma step_log_length (m : TuringMachine) :
    (step m).stepsLog.length ≤ m.stepsLog.length + 2 := by
  cases hs : m.state
  case accept => simp [step, hs]
  case reject => simp [step, hs]
  case scanToSeparator =>
    simp only [step, hs, stepScan]
    split_ifs with h1 h2 h3 <;> simp
  case checkSecondString =>
    simp only [step, hs, stepCheckSecond]
    split_ifs with h1 h2 <;> simp
  case findMatch =>
    simp only [step, hs, stepFindMatch]
    split_ifs with h1 h2
    · cases horig : m.originalChar <;> simp
    · simp
    · cases horig : m.originalChar with
      | none => simp
      | some oc => by_cases heq : read m = oc <;> simp [heq]
  case findFirstChar =>
    simp only [step, hs, stepFindFirstChar]
    split_ifs with h1 h2 h3 h4 h5 h6 h7 h8 <;> simp <;> omega

/-- A `step` never shortens the tape. -/
lemma step_tape_length (m : TuringMachine) :
    m.tape.length ≤ (step m).tape.length := by
  obtain ⟨n, h | ⟨i, c, h⟩⟩ := step_tape_shape m
  · rw [h]; simp
  · rw [h]; simp

lemma runLoop_tape_length (f : Nat) (m : TuringMachine) :
    m.tape.length ≤ (runLoop f m).1.tape.length := by
  induction f generalizing m with
  | zero => simp [runLoop]
  | succ f ih =>
    unfold runLoop
    by_cases h : m.state = MState.accept ∨ m.state = MState.reject
    · simp [h]
    · simpa [h] using (step_tape_length m).trans (ih (step m))

lemma runLoop_log_grows (f : Nat) (m : TuringMachine) :
    m.stepsLog <+: (runLoop f m).1.stepsLog := by
  induction f generalizing m with
  | zero => simp [runLoop]
  | succ f ih =>
    unfold runLoop
    by_cases h : m.state = MState.accept ∨ m.state = MState.reject
    · simp [h]
    · simpa [h] using (step_log_grows m).trans (ih (step m))

/-- The tape never shrinks across a whole `run`. -/
lemma run_tape_length (m : TuringMachine) :
    m.tape.length ≤ (run m).tape.length := by
  simp only [run, logStep_state, logStep_tape]
  split_ifs with h1 h2
  · simp
  · simpa using
      runLoop_tape_length (min 100000 (m.tape.length * 10))
        (logStep m Descr.startingMachine)
  · simpa using
      runLoop_tape_length (min 100000 (m.tape.length * 10))
        (logStep m Descr.startingMachine)

/-- `run` appends the start entry to the existing log and after that only
appends: the old log followed by the start entry is a prefix of the final
log, also when the fast path already decided the verdict. -/
lemma run_log_grows (m : TuringMachine) :
    m.stepsLog ++ [⟨m.state, Descr.startingMachine, m.tape, m.headPosition⟩]
      <+: (run m).stepsLog := by
  simp only [run, logStep_state, logStep_tape]
  split_ifs with h1 h2
  · simp [logStep]
  · have hp := runLoop_log_grows (min 100000 (m.tape.length * 10))
      (logStep m Descr.startingMachine)
    refine List.IsPrefix.trans ?_ (hp.trans (List.prefix_append _ _))
    simp [logStep]
  · have hp := runLoop_log_grows (min 100000 (m.tape.length * 10))
      (logStep m Descr.startingMachine)
    simpa [logStep] using hp

lemma sepBound_iff (m : TuringMachine) :
    SepBound m ↔ ∀ p, m.separatorPosition = some p →
      0 ≤ p ∧ p < (m.tape.length : Int) := by
  unfold SepBound
  split <;> simp_all

lemma sepDollar_iff (m : TuringMachine) :
    SepDollar m ↔ ∀ p, m.separatorPosition = some p →
      m.tape.getD p.toNat '_' = '$' := by
  unfold SepDollar
  split <;> simp_all

/-- `HInv` only looks at the tape, the head and the separator cache, so it
transfers between machines sharing those fields. -/
lemma hinv_of_fields (m : TuringMachine) {m' : TuringMachine} (h : HInv m)
    (ht : m'.tape = m.tape) (hh : m'.headPosition = m.headPosition)
    (hs : m'.separatorPosition = m.separatorPosition) : HInv m' := by
  obtain ⟨h0, h1, h2, h3⟩ := h
  rw [sepBound_iff] at h3
  refine ⟨by rw [hh]; exact h0, by rw [hh, ht]; exact h1, by rw [ht]; exact h2, ?_⟩
  rw [sepBound_iff]
  intro p hp
  rw [ht]
  exact h3 p (hs ▸ hp)

lemma hinv_move (m : TuringMachine) (h : HInv m) (d : Char) :
    HInv (move m d) := by
  obtain ⟨h0, h1, h2, h3⟩ := h
  rw [sepBound_iff] at h3
  unfold move
  split_ifs with hL hc hR hExt
  · refine ⟨by simp, by simp; omega, by simpa using h2, ?_⟩
    rw [sepBound_iff]
    intro p hp
    simp only at hp ⊢
    exact h3 p hp
  · refine ⟨by simp; omega, by simp; omega, by simpa using h2, ?_⟩
    rw [sepBound_iff]
    intro p hp
    simp only at hp ⊢
    exact h3 p hp
  · refine ⟨by simp <;> omega, by simp <;> omega, by simp <;> omega, ?_⟩
    rw [sepBound_iff]
    intro p hp
    simp only at hp ⊢
    obtain ⟨hp0, hp1⟩ := h3 p hp
    simp <;> omega
  · refine ⟨by simp; omega, by simp; omega, by simpa using h2, ?_⟩
    rw [sepBound_iff]
    intro p hp
    simp only at hp ⊢
    exact h3 p hp
  · exact ⟨h0, h1, h2, by rw [sepBound_iff]; exact h3⟩

lemma hinv_write (m : TuringMachine) (h : HInv m) (c : Char) :
    HInv (write m c) := by
  obtain ⟨h0, h1, h2, h3⟩ := h
  rw [sepBound_iff] at h3
  refine ⟨by simpa using h0, by simpa using h1, by simpa using h2, ?_⟩
  rw [sepBound_iff]
  intro p hp
  simp only [write_sep] at hp
  obtain ⟨hp0, hp1⟩ := h3 p hp
  simp
  exact ⟨hp0, hp1⟩

lemma hinv_gotoStart (m : TuringMachine) (h : HInv m) : HInv (gotoStart m) := by
  obtain ⟨h0, h1, h2, h3⟩ := h
  rw [sepBound_iff] at h3
  refine ⟨by simp, by simp; omega, by simpa using h2, ?_⟩
  rw [sepBound_iff]
  intro p hp
  simp only [gotoStart_sep] at hp
  simpa using h3 p hp

lemma hinv_gotoSeparator (m : TuringMachine) (h : HInv m) :
    HInv (gotoSeparator m).1 := by
  rcases hsep : m.separatorPosition with _ | p
  · rw [gotoSeparator_none hsep]; exact h
  · rw [gotoSeparator_some hsep]
    obtain ⟨h0, h1, h2, h3⟩ := h
    rw [sepBound_iff] at h3
    obtain ⟨hp0, hp1⟩ := h3 p hsep
    refine ⟨by simpa using hp0, by simpa using hp1, by simpa using h2, ?_⟩
    rw [sepBound_iff]
    intro q hq
    simp only at hq
    simpa using h3 q hq

/-- Setting the separator cache to the current head position keeps the head
invariant. -/
lemma hinv_set_sep_head (m : TuringMachine) (h : HInv m) :
    HInv { m with separatorPosition := some m.headPosition } := by
  obtain ⟨h0, h1, h2, h3⟩ := h
  refine ⟨by simpa using h0, by simpa using h1, by simpa using h2, ?_⟩
  rw [sepBound_iff]
  intro p hp
  simp only [Option.some.injEq] at hp
  subst hp
  exact ⟨h0, h1⟩

lemma hinv_scanRightLoop (f : Nat) (m : TuringMachine) (h : HInv m) :
    HInv (scanRightLoop f m) := by
  induction f generalizing m with
  | zero => simpa [scanRightLoop] using h
  | succ f ih =>
    unfold scanRightLoop
    by_cases hr : read m = '$' ∨ read m = '_'
    · simpa [hr] using h
    · simpa [hr] using ih (move m 'R') (hinv_move m h 'R')

lemma hinv_findSepLoop (f : Nat) (m : TuringMachine) (h : HInv m) :
    HInv (findSepLoop f m).1 := by
  induction f generalizing m with
  | zero => simpa [findSepLoop] using h
  | succ f ih =>
    unfold findSepLoop
    by_cases h1 : read m = '$'
    · simpa [h1] using h
    · by_cases h2 : read (move m 'R') = '_'
      · simpa [h1, h2] using hinv_move m h 'R'
      · simpa [h1, h2] using ih (move m 'R') (hinv_move m h 'R')

/-- One `step` preserves the head invariant. -/
lemma hinv_step (m : TuringMachine) (h : HInv m) : HInv (step m) := by
  cases hs : m.state
  case accept => simpa [step, hs] using h
  case reject => simpa [step, hs] using h
  case scanToSeparator =>
    simp only [step, hs, stepScan]
    split_ifs with h1 h2 h3
    · refine hinv_gotoStart _ (hinv_of_fields
        { write (logStep m Descr.foundSeparator) '$' with
            separatorPosition :=
              some (write (logStep m Descr.foundSeparator) '$').headPosition }
        (hinv_set_sep_head _ (hinv_write _ (hinv_of_fields m h (by simp)
          (by simp) (by simp)) '$')) (by simp) (by simp) (by simp))
    · exact hinv_of_fields m h (by simp) (by simp) (by simp)
    · exact hinv_move m h 'R'
    · exact hinv_move m h 'R'
  case checkSecondString =>
    simp only [step, hs, stepCheckSecond]
    split_ifs with h1 h2
    · exact hinv_move m h 'R'
    · exact hinv_of_fields m h (by simp) (by simp) (by simp)
    · exact hinv_of_fields m h (by simp) (by simp) (by simp)
  case findMatch =>
    simp only [step, hs, stepFindMatch]
    split_ifs with h1 h2
    · cases horig : m.originalChar with
      | none => exact h
      | some oc => exact hinv_of_fields m h (by simp) (by simp) (by simp)
    · exact hinv_move m h 'R'
    · cases horig : m.originalChar with
      | none => exact h
      | some oc =>
        by_cases heq : read m = oc
        · simp only [heq, if_true]
          exact hinv_gotoStart _ (hinv_of_fields (write m 'X')
            (hinv_write m h 'X') (by simp) (by simp) (by simp))
        · simp only [heq, if_false]
          exact hinv_move m h 'R'
  case findFirstChar =>
    simp only [step, hs, stepFindFirstChar]
    split_ifs with h1 h2 h3 h4 h5 h6 h7 h8
    · exact hinv_of_fields
        (move { m with state := MState.checkSecondString } 'R')
        (hinv_move _ (hinv_of_fields m h (by simp) (by simp) (by simp)) 'R')
        (by simp) (by simp) (by simp)
    · exact hinv_move m h 'R'
    · exact hinv_of_fields
        (move { scanRightLoop (m.tape.length + 101) m with
                  state := MState.checkSecondString } 'R')
        (hinv_move _ (hinv_of_fields (scanRightLoop (m.tape.length + 101) m)
          (hinv_scanRightLoop _ m h) (by simp) (by simp) (by simp)) 'R')
        (by simp) (by simp) (by simp)
    · exact hinv_of_fields (scanRightLoop (m.tape.length + 101) m)
        (hinv_scanRightLoop _ m h) (by simp) (by simp) (by simp)
    · exact hinv_of_fields
        (move { scanRightLoop (m.tape.length + 101) m with
                  state := MState.checkSecondString } 'R')
        (hinv_move _ (hinv_of_fields (scanRightLoop (m.tape.length + 101) m)
          (hinv_scanRightLoop _ m h) (by simp) (by simp) (by simp)) 'R')
        (by simp) (by simp) (by simp)
    · exact hinv_of_fields (scanRightLoop (m.tape.length + 101) m)
        (hinv_scanRightLoop _ m h) (by simp) (by simp) (by simp)
    · exact hinv_of_fields
        (move (gotoSeparator (logStep (write m '*')
          (Descr.processingChar (read m)))).1 'R')
        (hinv_move _ (hinv_gotoSeparator _ (hinv_of_fields (write m '*')
          (hinv_write m h '*') (by simp) (by simp) (by simp))) 'R')
        (by simp) (by simp) (by simp)
    · exact hinv_of_fields
        (move { (findSepLoop ((gotoSeparator (logStep (write m '*')
            (Descr.processingChar (read m)))).1.tape.length + 101)
            (gotoSeparator (logStep (write m '*')
              (Descr.processingChar (read m)))).1).1 with
          separatorPosition := some (findSepLoop ((gotoSeparator (logStep
            (write m '*') (Descr.processingChar (read m)))).1.tape.length
              + 101)
            (gotoSeparator (logStep (write m '*')
              (Descr.processingChar (read m)))).1).1.headPosition } 'R')
        (hinv_move _ (hinv_set_sep_head _ (hinv_findSepLoop _ _
          (hinv_gotoSeparator _ (hinv_of_fields (write m '*')
            (hinv_write m h '*') (by simp) (by simp) (by simp))))) 'R')
        (by simp) (by simp) (by simp)
    · exact hinv_of_fields
        (findSepLoop ((gotoSeparator (logStep (write m '*')
            (Descr.processingChar (read m)))).1.tape.length + 101)
          (gotoSeparator (logStep (write m '*')
            (Descr.processingChar (read m)))).1).1
        (hinv_findSepLoop _ _ (hinv_gotoSeparator _ (hinv_of_fields
          (write m '*') (hinv_write m h '*') (by simp) (by simp) (by simp))))
        (by simp) (by simp) (by simp)

lemma hinv_runLoop (f : Nat) (m : TuringMachine) (h : HInv m) :
    HInv (runLoop f m).1 := by
  induction f generalizing m with
  | zero => simpa [runLoop] using h
  | succ f ih =>
    unfold runLoop
    by_cases ht : m.state = MState.accept ∨ m.state = MState.reject
    · simpa [ht] using h
    · simpa [ht] using ih (step m) (hinv_step m h)

lemma hinv_run (m : TuringMachine) (h : HInv m) : HInv (run m) := by
  simp only [run, logStep_state, logStep_tape]
  split_ifs with h1 h2
  · exact hinv_of_fields m h (by simp) (by simp) (by simp)
  · refine hinv_of_fields
      (runLoop (min 100000 (m.tape.length * 10))
        (logStep m Descr.startingMachine)).1
      (hinv_runLoop _ _ (hinv_of_fields m h (by simp) (by simp) (by simp)))
      (by simp) (by simp) (by simp)
  · exact hinv_runLoop _ _ (hinv_of_fields m h (by simp) (by simp) (by simp))

/-- The machine produced by the constructor satisfies the head invariant. -/
lemma hinv_init (input : List Char) : HInv (init input) := by
  have hbase : HInv
      ⟨List.replicate 5 '_' ++ input ++
          List.replicate (max 20 input.length) '_', 5,
        MState.scanToSeparator, [], none, none⟩ := by
    refine ⟨by norm_num, ?_, ?_, by rw [sepBound_iff]; simp⟩
    · simp only [List.length_append, List.length_replicate]
      push_cast
      omega
    · simp only [List.length_append, List.length_replicate]
      omega
  simp only [init]
  split
  · split
    · split_ifs with hcond hlen
      · exact hinv_of_fields _ hbase (by simp) (by simp) (by simp)
      · exact hinv_of_fields _ hbase (by simp) (by simp) (by simp)
      · exact hbase
    · exact hbase
  · exact hbase

lemma inv_of_fields (m : TuringMachine) {m' : TuringMachine} (h : Inv m)
    (ht : m'.tape = m.tape) (hh : m'.headPosition = m.headPosition)
    (hs : m'.separatorPosition = m.separatorPosition)
    (ho : m'.originalChar = m.originalChar) : Inv m' := by
  obtain ⟨h1, h2, h3⟩ := h
  refine ⟨hinv_of_fields m h1 ht hh hs, ?_, by rw [ho]; exact h3⟩
  rw [sepDollar_iff] at h2 ⊢
  intro p hp
  rw [ht]
  exact h2 p (hs ▸ hp)

lemma inv_move (m : TuringMachine) (h : Inv m) (d : Char) : Inv (move m d) := by
  obtain ⟨h1, h2, h3⟩ := h
  refine ⟨hinv_move m h1 d, ?_, by simpa using h3⟩
  rw [sepDollar_iff] at h2 ⊢
  intro p hp
  simp only [move_sep] at hp
  have hb := h1.2.2.2
  rw [sepBound_iff] at hb
  obtain ⟨hp0, hp1⟩ := hb p hp
  have hlt : p.toNat < m.tape.length := by omega
  rcases move_tape_shape m d with hmt | ⟨hmt, -, -⟩
  · rw [hmt]; exact h2 p hp
  · rw [hmt]
    have := h2 p hp
    simp only [List.getD_eq_getElem?_getD] at this ⊢
    rw [List.getElem?_append_left hlt]
    exact this

lemma inv_write (m : TuringMachine) (h : Inv m) (hne : read m ≠ '$')
    (c : Char) : Inv (write m c) := by
  obtain ⟨h1, h2, h3⟩ := h
  refine ⟨hinv_write m h1 c, ?_, by simpa using h3⟩
  rw [sepDollar_iff] at h2 ⊢
  intro p hp
  simp only [write_sep] at hp
  by_cases hij : m.headPosition.toNat = p.toNat
  · exfalso
    apply hne
    unfold read
    rw [hij]
    exact h2 p hp
  · have := h2 p hp
    simp only [write_tape, List.getD_eq_getElem?_getD] at this ⊢
    rw [List.getElem?_set_ne hij]
    exact this

lemma inv_gotoStart (m : TuringMachine) (h : Inv m) : Inv (gotoStart m) := by
  obtain ⟨h1, h2, h3⟩ := h
  refine ⟨hinv_gotoStart m h1, ?_, by simpa using h3⟩
  rw [sepDollar_iff] at h2 ⊢
  intro p hp
  simp only [gotoStart_sep] at hp
  simpa using h2 p hp

lemma inv_gotoSeparator (m : TuringMachine) (h : Inv m) :
    Inv (gotoSeparator m).1 := by
  obtain ⟨h1, h2, h3⟩ := h
  refine ⟨hinv_gotoSeparator m h1, ?_, by simpa using h3⟩
  rw [sepDollar_iff] at h2 ⊢
  intro p hp
  simp only [gotoSeparator_fst_sep] at hp
  simpa using h2 p hp

/-- Setting the separator cache to the current head position is sound when
the head reads `'$'`. -/
lemma inv_set_sep_head_of_read (m : TuringMachine) (h : Inv m)
    (hr : read m = '$') :
    Inv { m with separatorPosition := some m.headPosition } := by
  obtain ⟨h1, h2, h3⟩ := h
  refine ⟨hinv_set_sep_head m h1, ?_, by simpa using h3⟩
  rw [sepDollar_iff]
  intro p hp
  simp only [Option.some.injEq] at hp
  subst hp
  exact hr

lemma inv_scanRightLoop (f : Nat) (m : TuringMachine) (h : Inv m) :
    Inv (scanRightLoop f m) := by
  induction f generalizing m with
  | zero => simpa [scanRightLoop] using h
  | succ f ih =>
    unfold scanRightLoop
    by_cases hr : read m = '$' ∨ read m = '_'
    · simpa [hr] using h
    · simpa [hr] using ih (move m 'R') (inv_move m h 'R')

lemma inv_findSepLoop (f : Nat) (m : TuringMachine) (h : Inv m) :
    Inv (findSepLoop f m).1 := by
  induction f generalizing m with
  | zero => simpa [findSepLoop] using h
  | succ f ih =>
    unfold findSepLoop
    by_cases h1 : read m = '$'
    · simpa [h1] using h
    · by_cases h2 : read (move m 'R') = '_'
      · simpa [h1, h2] using inv_move m h 'R'
      · simpa [h1, h2] using ih (move m 'R') (inv_move m h 'R')

/-- One `step` preserves the full invariant: in particular the tape cell at
the remembered separator position always keeps its `'$'`. -/
lemma inv_step (m : TuringMachine) (h : Inv m) : Inv (step m) := by
  cases hs : m.state
  case accept => simpa [step, hs] using h
  case reject => simpa [step, hs] using h
  case scanToSeparator =>
    simp only [step, hs, stepScan]
    split_ifs with h1 h2 h3
    · have hne : read (logStep m Descr.foundSeparator) ≠ '$' := by
        have hrd : read (logStep m Descr.foundSeparator) = read m := rfl
        rw [hrd, h1]
        decide
      have hw : Inv (write (logStep m Descr.foundSeparator) '$') :=
        inv_write (logStep m Descr.foundSeparator)
          (inv_of_fields m h (by simp) (by simp) (by simp) (by simp)) hne '$'
      have hb : m.headPosition.toNat < m.tape.length := by
        obtain ⟨⟨a, b, -, -⟩, -, -⟩ := h
        omega
      have hr : read (write (logStep m Descr.foundSeparator) '$') = '$' := by
        unfold read
        simp [List.getD_eq_getElem?_getD, List.getElem?_set_self, hb]
      exact inv_gotoStart _ (inv_of_fields
        { write (logStep m Descr.foundSeparator) '$' with
            separatorPosition :=
              some (write (logStep m Descr.foundSeparator) '$').headPosition }
        (inv_set_sep_head_of_read _ hw hr) (by simp) (by simp) (by simp)
        (by simp))
    · exact inv_of_fields m h (by simp) (by simp) (by simp) (by simp)
    · exact inv_move m h 'R'
    · exact inv_move m h 'R'
  case checkSecondString =>
    simp only [step, hs, stepCheckSecond]
    split_ifs with h1 h2
    · exact inv_move m h 'R'
    · exact inv_of_fields m h (by simp) (by simp) (by simp) (by simp)
    · exact inv_of_fields m h (by simp) (by simp) (by simp) (by simp)
  case findMatch =>
    simp only [step, hs, stepFindMatch]
    split_ifs with h1 h2
    · cases horig : m.originalChar with
      | none => exact h
      | some oc =>
        exact inv_of_fields m h (by simp) (by simp) (by simp) (by simp [horig])
    · exact inv_move m h 'R'
    · cases horig : m.originalChar with
      | none => exact h
      | some oc =>
        by_cases heq : read m = oc
        · simp only [heq, if_true]
          have hocne : oc ≠ '$' := by
            intro hcon
            exact h.2.2 (by rw [horig, hcon])
          exact inv_gotoStart _ (inv_of_fields (write m 'X')
            (inv_write m h (by rw [heq]; exact hocne) 'X')
            (by simp) (by simp) (by simp) (by simp [horig]))
        · simp only [heq, if_false]
          exact inv_move m h 'R'
  case findFirstChar =>
    simp only [step, hs, stepFindFirstChar]
    split_ifs with h1 h2 h3 h4 h5 h6 h7 h8
    · exact inv_of_fields
        (move { m with state := MState.checkSecondString } 'R')
        (inv_move _ (inv_of_fields m h (by simp) (by simp) (by simp)
          (by simp)) 'R')
        (by simp) (by simp) (by simp) (by simp)
    · exact inv_move m h 'R'
    · exact inv_of_fields
        (move { scanRightLoop (m.tape.length + 101) m with
                  state := MState.checkSecondString } 'R')
        (inv_move _ (inv_of_fields (scanRightLoop (m.tape.length + 101) m)
          (inv_scanRightLoop _ m h) (by simp) (by simp) (by simp) (by simp))
          'R')
        (by simp) (by simp) (by simp) (by simp)
    · exact inv_of_fields (scanRightLoop (m.tape.length + 101) m)
        (inv_scanRightLoop _ m h) (by simp) (by simp) (by simp) (by simp)
    · exact inv_of_fields
        (move { scanRightLoop (m.tape.length + 101) m with
                  state := MState.checkSecondString } 'R')
        (inv_move _ (inv_of_fields (scanRightLoop (m.tape.length + 101) m)
          (inv_scanRightLoop _ m h) (by simp) (by simp) (by simp) (by simp))
          'R')
        (by simp) (by simp) (by simp) (by simp)
    · exact inv_of_fields (scanRightLoop (m.tape.length + 101) m)
        (inv_scanRightLoop _ m h) (by simp) (by simp) (by simp) (by simp)
    · have hw : Inv (logStep (write m '*') (Descr.processingChar (read m))) :=
        inv_of_fields (write m '*') (inv_write m h h1 '*')
          (by simp) (by simp) (by simp) (by simp)
      refine inv_of_fields
        { move (gotoSeparator (logStep (write m '*')
            (Descr.processingChar (read m)))).1 'R' with
            state := MState.findMatch, originalChar := some (read m) }
        ?_ (by simp) (by simp) (by simp) (by simp)
      have hmv := inv_move _ (inv_gotoSeparator _ hw) 'R'
      exact ⟨hinv_of_fields _ hmv.1 (by simp) (by simp) (by simp), by
          have := hmv.2.1
          rw [sepDollar_iff] at this ⊢
          intro p hp
          simp only at hp
          simpa using this p (by simpa using hp), by
          intro hcon
          exact h1 (Option.some.inj hcon)⟩
    · have hw : Inv (logStep (write m '*') (Descr.processingChar (read m))) :=
        inv_of_fields (write m '*') (inv_write m h h1 '*')
          (by simp) (by simp) (by simp) (by simp)
      have hfs : Inv (findSepLoop ((gotoSeparator (logStep (write m '*')
          (Descr.processingChar (read m)))).1.tape.length + 101)
          (gotoSeparator (logStep (write m '*')
            (Descr.processingChar (read m)))).1).1 :=
        inv_findSepLoop _ _ (inv_gotoSeparator _ hw)
      have hfound := findSepLoop_found
        ((gotoSeparator (logStep (write m '*')
          (Descr.processingChar (read m)))).1.tape.length + 101)
        (gotoSeparator (logStep (write m '*')
          (Descr.processingChar (read m)))).1 h8
      have hset := inv_set_sep_head_of_read _ hfs hfound
      refine inv_of_fields
        { move { (findSepLoop ((gotoSeparator (logStep (write m '*')
            (Descr.processingChar (read m)))).1.tape.length + 101)
            (gotoSeparator (logStep (write m '*')
              (Descr.processingChar (read m)))).1).1 with
            separatorPosition := some (findSepLoop ((gotoSeparator (logStep
              (write m '*') (Descr.processingChar (read m)))).1.tape.length
                + 101)
              (gotoSeparator (logStep (write m '*')
                (Descr.processingChar (read m)))).1).1.headPosition } 'R' with
            state := MState.findMatch, originalChar := some (read m) }
        ?_ (by simp) (by simp) (by simp) (by simp)
      have hmv := inv_move _ hset 'R'
      exact ⟨hinv_of_fields _ hmv.1 (by simp) (by simp) (by simp), by
          have := hmv.2.1
          rw [sepDollar_iff] at this ⊢
          intro p hp
          simp only at hp
          simpa using this p (by simpa using hp), by
          intro hcon
          exact h1 (Option.some.inj hcon)⟩
    · have hw : Inv (logStep (write m '*') (Descr.processingChar (read m))) :=
        inv_of_fields (write m '*') (inv_write m h h1 '*')
          (by simp) (by simp) (by simp) (by simp)
      exact inv_of_fields
        (findSepLoop ((gotoSeparator (logStep (write m '*')
            (Descr.processingChar (read m)))).1.tape.length + 101)
          (gotoSeparator (logStep (write m '*')
            (Descr.processingChar (read m)))).1).1
        (inv_findSepLoop _ _ (inv_gotoSeparator _ hw))
        (by simp) (by simp) (by simp) (by simp)

lemma inv_runLoop (f : Nat) (m : TuringMachine) (h : Inv m) :
    Inv (runLoop f m).1 := by
  induction f generalizing m with
  | zero => simpa [runLoop] using h
  | succ f ih =>
    unfold runLoop
    by_cases ht : m.state = MState.accept ∨ m.state = MState.reject
    · simpa [ht] using h
    · simpa [ht] using ih (step m) (inv_step m h)

lemma inv_run (m : TuringMachine) (h : Inv m) : Inv (run m) := by
  simp only [run, logStep_state, logStep_tape]
  split_ifs with h1 h2
  · exact inv_of_fields m h (by simp) (by simp) (by simp) (by simp)
  · refine inv_of_fields
      (runLoop (min 100000 (m.tape.length * 10))
        (logStep m Descr.startingMachine)).1
      (inv_runLoop _ _ (inv_of_fields m h (by simp) (by simp) (by simp)
        (by simp)))
      (by simp) (by simp) (by simp) (by simp)
  · exact inv_runLoop _ _ (inv_of_fields m h (by simp) (by simp) (by simp)
      (by simp))

/-- The machine produced by the constructor satisfies the full invariant
(vacuously for the separator cache, which starts out empty). -/
lemma inv_init (input : List Char) : Inv (init input) := by
  refine ⟨hinv_init input, ?_, ?_⟩
  · rw [sepDollar_iff]
    intro p hp
    exfalso
    revert hp
    simp only [init]
    split
    · split
      · split_ifs <;> simp
      · simp
    · simp
  · simp only [init]
    split
    · split
      · split_ifs <;> simp
      · simp
    · simp

end TuringMachine

namespace TuringMachine

/-- In a terminal state a `step` is the identity. -/
lemma step_of_terminal (m : TuringMachine) (h : Terminal m) : step m = m := by
  rcases h with h | h <;> simp [step, h]

lemma stepN_of_terminal (j : Nat) (m : TuringMachine) (h : Terminal m) :
    stepN j m = m := by
  induction j with
  | zero => rfl
  | succ j ih =>
    simp only [stepN]
    rw [step_of_terminal m h]
    exact ih

lemma stepN_add (a b : Nat) (m : TuringMachine) :
    stepN (a + b) m = stepN b (stepN a m) := by
  induction a generalizing m with
  | zero => rw [Nat.zero_add]; rfl
  | succ a ih =>
    rw [Nat.succ_add]
    simp only [stepN]
    exact ih (step m)

lemma runLoop_count_le (f : Nat) (m : TuringMachine) :
    (runLoop f m).2 ≤ f := by
  induction f generalizing m with
  | zero => simp [runLoop]
  | succ f ih =>
    unfold runLoop
    by_cases h : m.state = MState.accept ∨ m.state = MState.reject
    · simp [h]
    · simpa [h] using Nat.succ_le_succ (ih (step m))

/-- If the loop stopped before exhausting its fuel, it stopped because the
machine reached a terminal state. -/
lemma runLoop_terminal_of_lt (f : Nat) (m : TuringMachine)
    (h : (runLoop f m).2 < f) : Terminal (runLoop f m).1 := by
  induction f generalizing m with
  | zero => simp [runLoop] at h
  | succ f ih =>
    unfold runLoop at h ⊢
    by_cases ht : m.state = MState.accept ∨ m.state = MState.reject
    · rw [if_pos ht]
      exact ht
    · simp only [ht, if_false] at h ⊢
      exact ih (step m) (by simpa using Nat.lt_of_succ_lt_succ (by simpa using h))

/-- The loop is the `k`-fold iteration of `step`, where `k` is the first
time a terminal state appears, provided the fuel reaches that far. -/
lemma runLoop_graph (k : Nat) : ∀ (f : Nat) (m : TuringMachine),
    (∀ j, j < k → ¬ Terminal (stepN j m)) → Terminal (stepN k m) → k ≤ f →
    runLoop f m = (stepN k m, k) := by
  induction k with
  | zero =>
    intro f m hmin hk hle
    have hm : Terminal m := by simpa [stepN] using hk
    rcases hm with h | h
    · cases f <;> simp [runLoop, h, stepN]
    · cases f <;> simp [runLoop, h, stepN]
  | succ k ih =>
    intro f m hmin hk hle
    have h0 : ¬ Terminal m := by simpa [stepN] using hmin 0 (Nat.succ_pos k)
    unfold Terminal at h0
    cases f with
    | zero => omega
    | succ f =>
      unfold runLoop
      rw [if_neg h0]
      have hrec := ih f (step m)
        (fun j hj => by simpa [stepN] using hmin (j + 1) (by omega))
        (by simpa [stepN] using hk) (by omega)
      simp only [hrec]
      simp [stepN]

lemma sameCore_of_parts {m m' : TuringMachine} (h1 : m.tape = m'.tape)
    (h2 : m.headPosition = m'.headPosition) (h3 : m.state = m'.state)
    (h4 : m.separatorPosition = m'.separatorPosition)
    (h5 : m.originalChar = m'.originalChar) : SameCore m m' :=
  ⟨h1, h2, h3, h4, h5⟩

lemma read_eq_of_sameCore {m m' : TuringMachine} (h : SameCore m m') :
    read m = read m' := by
  unfold read
  rw [h.1, h.2.1]

lemma sameCore_logStep (m : TuringMachine) (d : Descr) :
    SameCore (logStep m d) m := by
  exact ⟨rfl, rfl, rfl, rfl, rfl⟩

lemma sameCore_move {m m' : TuringMachine} (h : SameCore m m') (d : Char) :
    SameCore (move m d) (move m' d) := by
  obtain ⟨t, hd, s, L, sep, oc⟩ := m
  obtain ⟨t', hd', s', L', sep', oc'⟩ := m'
  obtain ⟨h1, h2, h3, h4, h5⟩ := h
  replace h1 : t = t' := h1
  replace h2 : hd = hd' := h2
  replace h3 : s = s' := h3
  replace h4 : sep = sep' := h4
  replace h5 : oc = oc' := h5
  subst h1; subst h2; subst h3; subst h4; subst h5
  unfold move
  split_ifs <;> exact ⟨rfl, rfl, rfl, rfl, rfl⟩

lemma sameCore_write {m m' : TuringMachine} (h : SameCore m m') (c : Char) :
    SameCore (write m c) (write m' c) := by
  obtain ⟨h1, h2, h3, h4, h5⟩ := h
  unfold write
  exact ⟨by simp only []; rw [h1, h2], h2, h3, h4, h5⟩

lemma sameCore_gotoStart {m m' : TuringMachine} (h : SameCore m m') :
    SameCore (gotoStart m) (gotoStart m') := by
  obtain ⟨h1, h2, h3, h4, h5⟩ := h
  unfold gotoStart
  exact ⟨h1, rfl, h3, h4, h5⟩

lemma sameCore_gotoSeparator {m m' : TuringMachine} (h : SameCore m m') :
    SameCore (gotoSeparator m).1 (gotoSeparator m').1 ∧
      (gotoSeparator m).2 = (gotoSeparator m').2 := by
  obtain ⟨t, hd, s, L, sep, oc⟩ := m
  obtain ⟨t', hd', s', L', sep', oc'⟩ := m'
  obtain ⟨h1, h2, h3, h4, h5⟩ := h
  replace h1 : t = t' := h1
  replace h2 : hd = hd' := h2
  replace h3 : s = s' := h3
  replace h4 : sep = sep' := h4
  replace h5 : oc = oc' := h5
  subst h1; subst h2; subst h3; subst h4; subst h5
  unfold gotoSeparator
  rcases sep with _ | p
  · exact ⟨⟨rfl, rfl, rfl, rfl, rfl⟩, rfl⟩
  · exact ⟨⟨rfl, rfl, rfl, rfl, rfl⟩, rfl⟩

lemma sameCore_scanRightLoop (f : Nat) {m m' : TuringMachine}
    (h : SameCore m m') :
    SameCore (scanRightLoop f m) (scanRightLoop f m') := by
  induction f generalizing m m' with
  | zero => simpa [scanRightLoop] using h
  | succ f ih =>
    have hr := read_eq_of_sameCore h
    simp only [scanRightLoop]
    rw [← hr]
    by_cases hc : read m = '$' ∨ read m = '_'
    · simpa [hc] using h
    · simpa [hc] using ih (sameCore_move h 'R')

lemma sameCore_findSepLoop (f : Nat) {m m' : TuringMachine}
    (h : SameCore m m') :
    SameCore (findSepLoop f m).1 (findSepLoop f m').1 ∧
      (findSepLoop f m).2 = (findSepLoop f m').2 := by
  induction f generalizing m m' with
  | zero => exact ⟨by simpa [findSepLoop] using h, by simp [findSepLoop]⟩
  | succ f ih =>
    have hr := read_eq_of_sameCore h
    have hmv := sameCore_move h 'R'
    have hr2 := read_eq_of_sameCore hmv
    simp only [findSepLoop]
    rw [← hr, ← hr2]
    by_cases hc : read m = '$'
    · simp only [hc, if_true]
      exact ⟨h, by trivial⟩
    · by_cases hc2 : read (move m 'R') = '_'
      · simp only [hc, hc2, if_false, if_true]
        exact ⟨hmv, by trivial⟩
      · simp only [hc, hc2, if_false]
        exact ih hmv

end TuringMachine

namespace TuringMachine

lemma sameCore_symm {m m' : TuringMachine} (h : SameCore m m') :
    SameCore m' m :=
  ⟨h.1.symm, h.2.1.symm, h.2.2.1.symm, h.2.2.2.1.symm, h.2.2.2.2.symm⟩

lemma sameCore_trans {m1 m2 m3 : TuringMachine} (h : SameCore m1 m2)
    (h' : SameCore m2 m3) : SameCore m1 m3 :=
  ⟨h.1.trans h'.1, h.2.1.trans h'.2.1, h.2.2.1.trans h'.2.2.1,
    h.2.2.2.1.trans h'.2.2.2.1, h.2.2.2.2.trans h'.2.2.2.2⟩

lemma sameCore_logStep2 {m m' : TuringMachine} (h : SameCore m m')
    (d d' : Descr) : SameCore (logStep m d) (logStep m' d') :=
  sameCore_trans (sameCore_logStep m d)
    (sameCore_trans h (sameCore_symm (sameCore_logStep m' d')))

lemma sameCore_set_state {m m' : TuringMachine} (h : SameCore m m')
    (s : MState) : SameCore { m with state := s } { m' with state := s } :=
  ⟨h.1, h.2.1, rfl, h.2.2.2.1, h.2.2.2.2⟩

lemma sameCore_set_state_orig {m m' : TuringMachine} (h : SameCore m m')
    (s : MState) (o : Option Char) :
    SameCore { m with state := s, originalChar := o }
      { m' with state := s, originalChar := o } :=
  ⟨h.1, h.2.1, rfl, h.2.2.2.1, rfl⟩

lemma sameCore_set_sep_head {m m' : TuringMachine} (h : SameCore m m') :
    SameCore { m with separatorPosition := some m.headPosition }
      { m' with separatorPosition := some m'.headPosition } :=
  ⟨h.1, h.2.1, h.2.2.1, by rw [h.2.1], h.2.2.2.2⟩

/-- The log never influences a transition: machines with the same core
step to machines with the same core. -/
lemma sameCore_step {m m' : TuringMachine} (h : SameCore m m') :
    SameCore (step m) (step m') := by
  obtain ⟨t, hd, s, L, sep, oc⟩ := m
  obtain ⟨t', hd', s', L', sep', oc'⟩ := m'
  obtain ⟨h1, h2, h3, h4, h5⟩ := h
  replace h1 : t = t' := h1
  replace h2 : hd = hd' := h2
  replace h3 : s = s' := h3
  replace h4 : sep = sep' := h4
  replace h5 : oc = oc' := h5
  subst h1; subst h2; subst h3; subst h4; subst h5
  have hcore : SameCore ⟨t, hd, s, L, sep, oc⟩ ⟨t, hd, s, L', sep, oc⟩ :=
    ⟨rfl, rfl, rfl, rfl, rfl⟩
  cases s
  case accept => exact hcore
  case reject => exact hcore
  case scanToSeparator =>
    simp only [step, stepScan]
    rw [show read ⟨t, hd, MState.scanToSeparator, L', sep, oc⟩
      = read ⟨t, hd, MState.scanToSeparator, L, sep, oc⟩ from rfl]
    split_ifs with c1 c2 c3
    · have hw := sameCore_write
        (sameCore_logStep2 hcore Descr.foundSeparator Descr.foundSeparator)
        '$'
      exact sameCore_gotoStart
        ⟨hw.1, hw.2.1, rfl, by rw [hw.2.1], hw.2.2.2.2⟩
    · exact sameCore_logStep2 (sameCore_set_state hcore MState.reject) _ _
    · exact sameCore_move hcore 'R'
    · exact sameCore_move hcore 'R'
  case checkSecondString =>
    simp only [step, stepCheckSecond]
    rw [show read ⟨t, hd, MState.checkSecondString, L', sep, oc⟩
      = read ⟨t, hd, MState.checkSecondString, L, sep, oc⟩ from rfl]
    split_ifs with c1 c2
    · exact sameCore_move hcore 'R'
    · exact sameCore_logStep2 (sameCore_set_state hcore MState.accept) _ _
    · exact sameCore_logStep2 (sameCore_set_state hcore MState.reject) _ _
  case findMatch =>
    rcases oc with _ | c
    · simp only [step, stepFindMatch]
      rw [show read ⟨t, hd, MState.findMatch, L', sep, none⟩
        = read ⟨t, hd, MState.findMatch, L, sep, none⟩ from rfl]
      split_ifs with c1 c2
      · exact hcore
      · exact sameCore_move hcore 'R'
      · exact hcore
    · simp only [step, stepFindMatch]
      rw [show read ⟨t, hd, MState.findMatch, L', sep, some c⟩
        = read ⟨t, hd, MState.findMatch, L, sep, some c⟩ from rfl]
      split_ifs with c1 c2 c3
      · exact sameCore_logStep2 (sameCore_set_state hcore MState.reject) _ _
      · exact sameCore_move hcore 'R'
      · exact sameCore_gotoStart (sameCore_set_state
          (sameCore_logStep2 (sameCore_write hcore 'X') _ _)
          MState.findFirstChar)
      · exact sameCore_move hcore 'R'
  case findFirstChar =>
    simp only [step, stepFindFirstChar]
    rw [show read ⟨t, hd, MState.findFirstChar, L', sep, oc⟩
      = read ⟨t, hd, MState.findFirstChar, L, sep, oc⟩ from rfl]
    have hl := sameCore_scanRightLoop (t.length + 101) hcore
    have hrl := read_eq_of_sameCore hl
    rw [← hrl]
    have hm1 := sameCore_logStep2 (sameCore_write hcore '*')
      (Descr.processingChar (read ⟨t, hd, MState.findFirstChar, L, sep, oc⟩))
      (Descr.processingChar (read ⟨t, hd, MState.findFirstChar, L, sep, oc⟩))
    have hg := sameCore_gotoSeparator hm1
    rw [← hg.2, ← hg.1.1]
    have hf := sameCore_findSepLoop
      ((gotoSeparator (logStep
        (write ⟨t, hd, MState.findFirstChar, L, sep, oc⟩ '*')
        (Descr.processingChar
          (read ⟨t, hd, MState.findFirstChar, L, sep, oc⟩)))).1.tape.length
        + 101) hg.1
    rw [← hf.2]
    split_ifs with c1 c2 c3 c4 c5 c6 c7 c8
    · exact sameCore_logStep2 (sameCore_move
        (sameCore_set_state hcore MState.checkSecondString) 'R') _ _
    · exact sameCore_move hcore 'R'
    · exact sameCore_logStep2 (sameCore_move
        (sameCore_set_state hl MState.checkSecondString) 'R') _ _
    · exact sameCore_logStep2 (sameCore_set_state hl MState.reject) _ _
    · exact sameCore_move (sameCore_set_state hl MState.checkSecondString) 'R'
    · exact sameCore_logStep2 (sameCore_set_state hl MState.reject) _ _
    · exact sameCore_logStep2 (sameCore_set_state_orig
        (sameCore_move hg.1 'R') MState.findMatch
        (some (read ⟨t, hd, MState.findFirstChar, L, sep, oc⟩))) _ _
    · exact sameCore_logStep2 (sameCore_set_state_orig
        (sameCore_move (sameCore_set_sep_head hf.1) 'R') MState.findMatch
        (some (read ⟨t, hd, MState.findFirstChar, L, sep, oc⟩))) _ _
    · exact sameCore_logStep2 (sameCore_set_state hf.1 MState.reject) _ _

lemma sameCore_stepN (n : Nat) {m m' : TuringMachine} (h : SameCore m m') :
    SameCore (stepN n m) (stepN n m') := by
  induction n generalizing m m' with
  | zero => exact h
  | succ n ih => exact ih (sameCore_step h)

end TuringMachine

lemma splitOnHash_no_hash (s : List Char) (h : '#' ∉ s) :
    splitOnHash s = [s] := by
  induction s with
  | nil => rfl
  | cons c cs ih =>
    have hc : c ≠ '#' := fun hcon => h (by rw [hcon]; exact List.mem_cons_self _ _)
    have hcs : '#' ∉ cs := fun hx => h (List.mem_cons_of_mem c hx)
    simp only [splitOnHash, if_neg hc, ih hcs]

lemma splitOnHash_append (s1 s2 : List Char) (h1 : '#' ∉ s1) :
    splitOnHash (s1 ++ '#' :: s2) = s1 :: splitOnHash s2 := by
  induction s1 with
  | nil => simp [splitOnHash]
  | cons c cs ih =>
    have hc : c ≠ '#' := fun hcon => h1 (by rw [hcon]; exact List.mem_cons_self _ _)
    have hcs : '#' ∉ cs := fun hx => h1 (List.mem_cons_of_mem c hx)
    have hstep : (c :: cs) ++ '#' :: s2 = c :: (cs ++ '#' :: s2) := rfl
    rw [hstep]
    simp only [splitOnHash, if_neg hc, ih hcs]

namespace TuringMachine

lemma runLoop_of_terminal (f : Nat) (m : TuringMachine) (h : Terminal m) :
    runLoop f m = (m, 0) := by
  cases f with
  | zero => rfl
  | succ f =>
    unfold runLoop
    rcases h with h | h <;> simp [h]

/-- The machine a loop run returns is the iterate of `step` at the number
of steps the loop performed. -/
lemma runLoop_fst_eq_stepN (f : Nat) (m : TuringMachine) :
    (runLoop f m).1 = stepN (runLoop f m).2 m := by
  induction f generalizing m with
  | zero => rfl
  | succ f ih =>
    unfold runLoop
    by_cases h : m.state = MState.accept ∨ m.state = MState.reject
    · simp [h, stepN]
    · simp only [h, if_false]
      exact ih (step m)

/-- `run` on a machine that is not already terminal after the start entry:
loop with the budget, then force `reject` exactly when the budget was
used up. -/
lemma run_eq (m : TuringMachine) (h : ¬ Terminal (startState m)) :
    run m = if runBudget m ≤ (loopResult m).2
      then logStep { (loopResult m).1 with state := MState.reject }
        Descr.exceededMaxSteps
      else (loopResult m).1 := by
  replace h : ¬ (m.state = MState.accept ∨ m.state = MState.reject) := h
  simp only [run, logStep_state, logStep_tape]
  rw [if_neg h]
  rfl

lemma run_eq_terminal (m : TuringMachine) (h : Terminal (startState m)) :
    run m = startState m := by
  replace h : m.state = MState.accept ∨ m.state = MState.reject := h
  simp only [run, logStep_state, logStep_tape]
  rw [if_pos h]
  rfl

lemma init_tape (input : List Char) :
    (init input).tape =
      List.replicate 5 '_' ++ input ++
        List.replicate (max 20 input.length) '_' := by
  simp only [init]
  split
  · split
    · split_ifs <;> rfl
    · rfl
  · rfl

lemma init_head (input : List Char) : (init input).headPosition = 5 := by
  simp only [init]
  split
  · split
    · split_ifs <;> rfl
    · rfl
  · rfl

end TuringMachine

open TuringMachine

/-- C4: the fast-path optimization fires at construction exactly when the
input splits around `'#'` into exactly two non-empty halves, each a single
repeated character, both using the same character; it then accepts iff the
halves have equal length, and otherwise the machine starts in the general
scanning state. -/
theorem C4_fast_path (s1 s2 : List Char) (h1 : '#' ∉ s1) (h2 : '#' ∉ s2) :
    ((∃ c, s1 ≠ [] ∧ s2 ≠ [] ∧ s1 = List.replicate s1.length c ∧
        s2 = List.replicate s2.length c) →
      (TuringMachine.init (s1 ++ '#' :: s2)).state =
        if s1.length = s2.length then MState.accept else MState.reject)
    ∧ (¬ (∃ c, s1 ≠ [] ∧ s2 ≠ [] ∧ s1 = List.replicate s1.length c ∧
        s2 = List.replicate s2.length c) →
      (TuringMachine.init (s1 ++ '#' :: s2)).state = MState.scanToSeparator) := by
  have hcontains : (s1 ++ '#' :: s2).contains '#' = true := by simp
  have hsplit : splitOnHash (s1 ++ '#' :: s2) = [s1, s2] := by
    rw [splitOnHash_append s1 s2 h1, splitOnHash_no_hash s2 h2]
  constructor
  · rintro ⟨c, hne1, hne2, hrep1, hrep2⟩
    rcases s1 with _ | ⟨a, r0⟩
    · exact absurd rfl hne1
    rcases s2 with _ | ⟨b, r1⟩
    · exact absurd rfl hne2
    have hmem1 : ∀ x ∈ a :: r0, x = c := List.eq_replicate_length.mp hrep1
    have hmem2 : ∀ x ∈ b :: r1, x = c := List.eq_replicate_length.mp hrep2
    have ha : a = c := hmem1 a (List.mem_cons_self _ _)
    have hb : b = c := hmem2 b (List.mem_cons_self _ _)
    have hall1 : (a :: r0).all (· == a) = true := by
      rw [List.all_eq_true]
      intro x hx
      simp [hmem1 x hx, ha]
    have hall2 : (b :: r1).all (· == b) = true := by
      rw [List.all_eq_true]
      intro x hx
      simp [hmem2 x hx, hb]
    have hcond : (((a :: r0).all (· == a) && (b :: r1).all (· == b))
        && a == b) = true := by
      rw [hall1, hall2]
      simp [ha, hb]
    simp only [TuringMachine.init, hcontains, hsplit, hcond, if_true]
    split_ifs with hlen <;> rfl
  · intro hnot
    rcases s1 with _ | ⟨a, r0⟩
    · simp only [TuringMachine.init, hcontains, hsplit]
      rfl
    rcases s2 with _ | ⟨b, r1⟩
    · simp only [TuringMachine.init, hcontains, hsplit]
      rfl
    have hcond : ¬ ((((a :: r0).all (· == a) && (b :: r1).all (· == b))
        && a == b) = true) := by
      intro hcon
      apply hnot
      rw [Bool.and_eq_true, Bool.and_eq_true] at hcon
      obtain ⟨⟨hall1, hall2⟩, hab⟩ := hcon
      have hmem1 : ∀ x ∈ a :: r0, x = a := by
        intro x hx
        simpa using (List.all_eq_true.mp hall1) x hx
      have hmem2 : ∀ x ∈ b :: r1, x = b := by
        intro x hx
        simpa using (List.all_eq_true.mp hall2) x hx
      have hab' : a = b := by simpa using hab
      refine ⟨a, by simp, by simp, List.eq_replicate_length.mpr hmem1, ?_⟩
      refine List.eq_replicate_length.mpr ?_
      intro x hx
      rw [hmem2 x hx, ← hab']
    simp only [TuringMachine.init, hcontains, hsplit]
    rw [if_neg hcond]
    rfl

/-- Witness for C4 at concrete inputs: `"aaa#aa"` is rejected by the fast
path, and `"abcabc#abcabc"` does not trigger it. -/
theorem C4_witness :
    (TuringMachine.init ("aaa#aa".toList)).state = MState.reject ∧
    (TuringMachine.init ("abcabc#abcabc".toList)).state
      = MState.scanToSeparator := by
  constructor
  · have h := (C4_fast_path ("aaa".toList) ("aa".toList) (by decide)
      (by decide)).1 ⟨'a', by decide, by decide, by decide, by decide⟩
    simpa using h
  · decide

set_option maxRecDepth 100000

/-- C1 (code bug): the two halves of `bigInput` are anagrams (the second is
the reverse of the first, so the multisets of characters coincide), yet
`run` reports `accepted = false`: the step budget
`min 100000 (10 × tape length)` is exhausted before the general algorithm
finishes, and the forced reject overrides the correct verdict, contradicting
`run`'s own documentation ("'accepted': true if they're anagrams"). -/
theorem C1_anagram_rejected_by_budget :
    Multiset.ofList bigHalf = Multiset.ofList bigHalf.reverse ∧
    runAccepted (TuringMachine.init bigInput) = false :=
  ⟨(Multiset.coe_reverse _).symm, by decide⟩

/-- C2 counterexample: on `bigInput`, driving a fresh engine with 1599
`step` calls reaches the terminal state `accept`, while a single `run` on an
equivalently constructed engine reports `accepted = false`; the two drive
modes disagree, refuting the claim as stated. -/
theorem C2_counterexample :
    (stepN 1599 (TuringMachine.init bigInput)).state = MState.accept ∧
    runAccepted (TuringMachine.init bigInput) = false := by
  have heval : (runLoop 1600 (TuringMachine.init bigInput)).2 = 1599 ∧
      (runLoop 1600 (TuringMachine.init bigInput)).1.state
        = MState.accept := by decide
  constructor
  · have hfst := runLoop_fst_eq_stepN 1600 (TuringMachine.init bigInput)
    rw [heval.1] at hfst
    rw [← hfst]
    exact heval.2
  · decide

/-- C2 (amended): provided the step-driven engine reaches a terminal state
in fewer steps than `run`'s budget `min 100000 (10 × tape length)`, the
verdict (final state) and the final tape of `run` agree with those of the
step-driven engine. -/
theorem C2_step_run_agree_within_budget (input : List Char) (n : Nat)
    (hterm : Terminal (stepN n (TuringMachine.init input)))
    (hlt : n < runBudget (TuringMachine.init input)) :
    (run (TuringMachine.init input)).state
        = (stepN n (TuringMachine.init input)).state ∧
    (run (TuringMachine.init input)).tape
        = (stepN n (TuringMachine.init input)).tape := by
  set m0 := TuringMachine.init input with hm0
  by_cases hT : Terminal (startState m0)
  · have hT0 : Terminal m0 := hT
    rw [run_eq_terminal m0 hT, stepN_of_terminal n m0 hT0]
    exact ⟨rfl, rfl⟩
  · have hsc : SameCore (startState m0) m0 := sameCore_logStep m0 _
    have hcn := sameCore_stepN n hsc
    have htermS : Terminal (stepN n (startState m0)) := by
      unfold Terminal
      rw [hcn.2.2.1]
      exact hterm
    have hex : ∃ k, Terminal (stepN k (startState m0)) := ⟨n, htermS⟩
    classical
    have hk : Terminal (stepN (Nat.find hex) (startState m0)) :=
      Nat.find_spec hex
    have hmin : ∀ j, j < Nat.find hex →
        ¬ Terminal (stepN j (startState m0)) :=
      fun j hj => Nat.find_min hex hj
    have hkn : Nat.find hex ≤ n := Nat.find_min' hex htermS
    have hgraph := runLoop_graph (Nat.find hex) (runBudget m0)
      (startState m0) hmin hk (by omega)
    rw [run_eq m0 hT]
    have hloop : loopResult m0 = (stepN (Nat.find hex) (startState m0),
        Nat.find hex) := hgraph
    rw [hloop]
    rw [if_neg (by omega)]
    have habs : stepN n (startState m0)
        = stepN (Nat.find hex) (startState m0) := by
      have hn : n = Nat.find hex + (n - Nat.find hex) := by omega
      rw [hn, stepN_add]
      exact stepN_of_terminal _ _ hk
    constructor
    · rw [← hcn.2.2.1, habs]
    · rw [← hcn.1, habs]

/-- Witness for C2 (amended) at the concrete input `"ab#ba"`, which halts
after 15 steps, well within the budget of 300. -/
theorem C2_witness :
    Terminal (stepN 20 (TuringMachine.init ("ab#ba".toList))) ∧
    20 < runBudget (TuringMachine.init ("ab#ba".toList)) ∧
    ((run (TuringMachine.init ("ab#ba".toList))).state
        = (stepN 20 (TuringMachine.init ("ab#ba".toList))).state ∧
      (run (TuringMachine.init ("ab#ba".toList))).tape
        = (stepN 20 (TuringMachine.init ("ab#ba".toList))).tape) :=
  ⟨by decide, by decide,
    C2_step_run_agree_within_budget ("ab#ba".toList) 20 (by decide)
      (by decide)⟩

/-- C3: `run` performs at most `min 100000 (10 × tape length at run start)`
`step` calls (the budget is computed once, from the tape as it is when
`run` starts), it always ends in a terminal state rather than propagating
an error, and when the budget is exhausted without reaching a terminal
state the machine is forced into `reject` with a trace entry carrying the
dedicated `exceededMaxSteps` description, distinct from every genuine
rejection message. -/
theorem C3_step_budget (input : List Char) :
    (loopResult (TuringMachine.init input)).2
        ≤ runBudget (TuringMachine.init input)
    ∧ Terminal (run (TuringMachine.init input))
    ∧ ((loopResult (TuringMachine.init input)).2
          = runBudget (TuringMachine.init input) →
        ¬ Terminal (loopResult (TuringMachine.init input)).1 →
        (run (TuringMachine.init input)).state = MState.reject ∧
        (run (TuringMachine.init input)).stepsLog =
          (loopResult (TuringMachine.init input)).1.stepsLog ++
            [⟨MState.reject, Descr.exceededMaxSteps,
              (loopResult (TuringMachine.init input)).1.tape,
              (loopResult (TuringMachine.init input)).1.headPosition⟩]) := by
  set m0 := TuringMachine.init input with hm0
  refine ⟨runLoop_count_le _ _, ?_, ?_⟩
  · by_cases hT : Terminal (startState m0)
    · rw [run_eq_terminal m0 hT]
      exact hT
    · rw [run_eq m0 hT]
      split_ifs with hb
      · exact Or.inr rfl
      · have hb' : ¬ (runBudget m0
            ≤ (runLoop (runBudget m0) (startState m0)).2) := hb
        exact runLoop_terminal_of_lt _ _ (by omega)
  · intro hcount hnterm
    have h25 : 25 ≤ m0.tape.length := (hinv_init input).2.2.1
    have hpos : 0 < runBudget m0 := by
      unfold runBudget
      omega
    have hT : ¬ Terminal (startState m0) := by
      intro hT
      have h0 : loopResult m0 = (startState m0, 0) :=
        runLoop_of_terminal _ _ hT
      rw [h0] at hcount
      simp at hcount
      omega
    rw [run_eq m0 hT, if_pos (le_of_eq hcount.symm)]
    exact ⟨rfl, by simp⟩

/-- Witness for C3 at the concrete input `"ab#ba"`. -/
theorem C3_witness :
    Terminal (run (TuringMachine.init ("ab#ba".toList))) :=
  (C3_step_budget ("ab#ba".toList)).2.1

/-- C5 counterexample: in state `scan to separator` with the head on the
`'#'` cell (position 7 of the tape built from `"ab#ba"`), a single `step`
writes `'$'` and jumps the head back to position 5 via `goto_start`, moving
it by two cells, refuting "changes the head position by at most one cell". -/
theorem C5_counterexample :
    (step (step (TuringMachine.init ("ab#ba".toList)))).headPosition = 7 ∧
    (step (step (step (TuringMachine.init
      ("ab#ba".toList))))).headPosition = 5 := by
  constructor
  · decide
  · decide

/-- C5 (amended): every single call to `step` changes the tape only by
overwriting at most one existing cell and possibly appending blank cells;
the head, however, may move by more than one cell in one call. -/
theorem C5_single_write (m : TuringMachine) :
    ∃ n, (step m).tape = m.tape ++ List.replicate n '_' ∨
      ∃ i c, (step m).tape = m.tape.set i c ++ List.replicate n '_' :=
  step_tape_shape m

/-- C6: after construction and after every operation the head satisfies
`0 ≤ head < length tape` (`HInv` also records the two facts this needs:
the tape keeps its minimum length and the cached separator index stays in
bounds); a LEFT move at position 0 clamps the head at 0; and under the
invariant `read`'s index `headPosition.toNat` is a valid tape index, so it
never reads out of bounds. -/
theorem C6_head_invariant :
    (∀ input : List Char, HInv (TuringMachine.init input))
    ∧ (∀ m : TuringMachine, HInv m →
        (∀ c, HInv (write m c)) ∧ (∀ d, HInv (move m d)) ∧
        HInv (step m) ∧ HInv (run m) ∧
        0 ≤ m.headPosition ∧ m.headPosition < (m.tape.length : Int) ∧
        m.headPosition.toNat < m.tape.length)
    ∧ (∀ m : TuringMachine, m.headPosition = 0 →
        (move m 'L').headPosition = 0) := by
  refine ⟨hinv_init, fun m h => ⟨fun c => hinv_write m h c,
    fun d => hinv_move m h d, hinv_step m h, hinv_run m h, h.1, h.2.1, ?_⟩,
    fun m h0 => ?_⟩
  · obtain ⟨a, b, -, -⟩ := h
    omega
  · rw [move_L, h0]
    norm_num

/-- Witness for C6 at a concrete machine. -/
theorem C6_witness : HInv (step (TuringMachine.init ("ab#ba".toList))) :=
  (C6_head_invariant.2.1 (TuringMachine.init ("ab#ba".toList))
    (by decide)).2.2.1

/-- C7: the constructor lays the tape out as 5 blanks, the input, then
`max 20 (length input)` blanks with the head at index 5; a `move` either
leaves the tape unchanged or appends exactly the 100-blank block, the
latter only on a RIGHT move whose resulting head position is within 10
cells of the current end; `write` never changes the length; and neither
`step` nor `run` ever shrinks the tape. -/
theorem C7_tape_layout_and_growth :
    (∀ input : List Char,
      (TuringMachine.init input).tape =
        List.replicate 5 '_' ++ input ++
          List.replicate (max 20 input.length) '_'
      ∧ (TuringMachine.init input).headPosition = 5)
    ∧ (∀ (m : TuringMachine) (d : Char),
        (move m d).tape = m.tape ∨
          ((move m d).tape = m.tape ++ List.replicate 100 '_' ∧ d = 'R' ∧
            (m.tape.length : Int) - 10 ≤ m.headPosition + 1))
    ∧ (∀ (m : TuringMachine) (c : Char),
        (write m c).tape.length = m.tape.length)
    ∧ (∀ m : TuringMachine, m.tape.length ≤ (step m).tape.length)
    ∧ (∀ m : TuringMachine, m.tape.length ≤ (run m).tape.length) :=
  ⟨fun input => ⟨init_tape input, init_head input⟩, move_tape_shape,
    fun m c => by simp, step_tape_length, run_tape_length⟩

/-- C8 counterexample: the claim says exactly one group of entries is
appended per `step` call, but the very first step on the tape built from
`"ab#ba"` (a plain rightward scan move) appends nothing: the log is still
empty afterwards. -/
theorem C8_counterexample :
    (step (TuringMachine.init ("ab#ba".toList))).stepsLog = [] ∧
    (TuringMachine.init ("ab#ba".toList)).stepsLog = [] := by
  constructor
  · decide
  · decide

/-- C8 (amended): the trace log is append-only and grows monotonically —
each `step` appends between zero and two groups of entries (never touching
the entries already present), and `run` first appends the start entry
(also on the fast path) and afterwards only appends. -/
theorem C8_log_append_only :
    (∀ m : TuringMachine, m.stepsLog <+: (step m).stepsLog ∧
      (step m).stepsLog.length ≤ m.stepsLog.length + 2)
    ∧ (∀ m : TuringMachine,
        m.stepsLog ++ [⟨m.state, Descr.startingMachine, m.tape,
          m.headPosition⟩] <+: (run m).stepsLog) :=
  ⟨fun m => ⟨step_log_grows m, step_log_length m⟩, run_log_grows⟩

/-- C9: calling `step` on a machine in a terminal state (`accept` or
`reject`) is a no-op: the whole machine — state, tape, head, separator
cache and trace log — is unchanged, and the returned head position is the
unchanged one. -/
theorem C9_terminal_step_noop (m : TuringMachine) (h : Terminal m) :
    step m = m ∧ (step m).headPosition = m.headPosition :=
  ⟨step_of_terminal m h, by rw [step_of_terminal m h]⟩

/-- Witness for C9 on the fast-path-rejected machine built from
`"aaa#aa"`. -/
theorem C9_witness :
    Terminal (TuringMachine.init ("aaa#aa".toList)) ∧
    step (TuringMachine.init ("aaa#aa".toList))
      = TuringMachine.init ("aaa#aa".toList) :=
  ⟨by decide, (C9_terminal_step_noop _ (by decide)).1⟩

/-- C10: whenever the remembered separator position is set, the tape cell
at that index holds `'$'` (`Inv` additionally carries the head bounds and
the fact that the remembered pivot is never `'$'`, which the preservation
proof needs); the invariant is established by the constructor and preserved
by `move`, `step` and `run`; a `write` at the head preserves it whenever
the head is not currently reading `'$'` — which is the case at every write
the machine performs; and a successful `goto_separator` puts the head on a
`'$'` cell. -/
theorem C10_separator_invariant :
    (∀ input : List Char, Inv (TuringMachine.init input))
    ∧ (∀ m : TuringMachine, Inv m →
        (∀ d, Inv (move m d)) ∧ Inv (step m) ∧ Inv (run m))
    ∧ (∀ (m : TuringMachine) (c : Char), Inv m → read m ≠ '$' →
        SepDollar (write m c))
    ∧ (∀ (m : TuringMachine) (p : Int), Inv m →
        m.separatorPosition = some p →
        (gotoSeparator m).2 = true ∧ read (gotoSeparator m).1 = '$') := by
  refine ⟨inv_init, fun m h => ⟨fun d => inv_move m h d, inv_step m h,
    inv_run m h⟩, fun m c h hne => (inv_write m h hne c).2.1,
    fun m p h hp => ?_⟩
  rw [gotoSeparator_some hp]
  refine ⟨rfl, ?_⟩
  have hd := h.2.1
  rw [sepDollar_iff] at hd
  have := hd p hp
  unfold TuringMachine.read
  simpa using this

/-- Witness for C10 on the machine reached after three steps from
`"ab#ba"`, whose separator cache holds index 7. -/
theorem C10_witness :
    read (gotoSeparator
      (stepN 3 (TuringMachine.init ("ab#ba".toList)))).1 = '$' :=
  (C10_separator_invariant.2.2.2
    (stepN 3 (TuringMachine.init ("ab#ba".toList))) 7 (by decide)
    (by decide)).2
